import Mathlib

/-!
Verification of the binary file-format readers of the phypno repository
(src/phypno/ioeeg/blackrock.py and src/phypno/ioeeg/ktlx.py) against the
natural-language specification.  Files are modelled as lists of bytes
(natural numbers below 256), numpy arrays as Lean lists, Python integers
as Int and scale factors as rationals.  Fallible Python code is modelled
with Except over an explicit error type mirroring the exception classes
that the Python code can raise.
-/

namespace Phypno

/-- Error type covering the Python exceptions the modelled code can raise. -/
inductive PyErr where
  | indexError
  | valueError
  | assertionError
  | nameError
  | structError
  | notImplementedError
  | zeroDivisionError
  deriving DecidableEq, Repr

/-! ### Byte-level decoding helpers (struct.unpack equivalents) -/

/-- Decode two bytes as a little-endian signed 16-bit integer
(struct format character h). -/
def int16OfBytes (b0 b1 : Nat) : Int :=
  let u := (b0 % 256) + 256 * (b1 % 256)
  if u < 32768 then (u : Int) else (u : Int) - 65536

/-- Decode one byte as a signed 8-bit integer (struct format character b). -/
def int8OfByte (b0 : Nat) : Int :=
  let u := b0 % 256
  if u < 128 then (u : Int) else (u : Int) - 256

/-- Decode four bytes as a little-endian signed 32-bit integer
(struct format character i). -/
def int32OfBytes (b0 b1 b2 b3 : Nat) : Int :=
  let u := (b0 % 256) + 256 * (b1 % 256) + 65536 * (b2 % 256) + 16777216 * (b3 % 256)
  if u < 2147483648 then (u : Int) else (u : Int) - 4294967296

/-- Encode a signed 16-bit integer as two little-endian bytes. -/
def bytesOfInt16 (v : Int) : List Nat :=
  let u := (v % 65536).toNat
  [u % 256, (u / 256) % 256]

/-- Encode a signed 32-bit integer as four little-endian bytes. -/
def bytesOfInt32 (v : Int) : List Nat :=
  let u := (v % 4294967296).toNat
  [u % 256, (u / 256) % 256, (u / 65536) % 256, (u / 16777216) % 256]

/-! ### blackrock.py, continuous-format data path -/

/-- Read one little-endian int16 from a byte list at a byte offset. -/
def readInt16At (file : List Nat) (pos : Nat) : Int :=
  int16OfBytes (file.getD pos 0) (file.getD (pos + 1) 0)

/-- Model of numpy.fromfile with dtype int16 at a given byte position:
a non-negative count reads at most count items and stops at end of file,
a negative count reads everything up to end of file. -/
def fromfileInt16 (file : List Nat) (pos : Nat) (count : Int) : List Int :=
  let avail := (file.length - pos) / 2
  let k := if count < 0 then avail else min count.toNat avail
  (List.range k).map (fun j => readInt16At file (pos + 2 * j))

/-- Model of the function read_nsx of blackrock.py: seek to
BOData plus channel count times 2 times begsam bytes, read
channel count times (endsam - begsam) little-endian int16 samples,
reshape column-major into (channels, samples) and scale each row by the
channel factor.  A reshape size mismatch raises ValueError, exactly as
numpy.reshape does; a count of -1 samples makes numpy infer the second
dimension from the data actually read. -/
def read_nsx (file : List Nat) (BOData : Nat) (factor : List ℚ)
    (begsam endsam : Int) : Except PyErr (List (List ℚ)) :=
  let n_chan := factor.length
  let posI : Int := (BOData : Int) + (n_chan : Int) * 2 * begsam
  if posI < 0 then .error .valueError else
  let pos := posI.toNat
  let n_sam := endsam - begsam
  let dat := fromfileInt16 file pos ((n_chan : Int) * n_sam)
  if 0 ≤ n_sam then
    if dat.length = n_chan * n_sam.toNat then
      .ok ((List.range n_chan).map (fun i =>
        (List.range n_sam.toNat).map (fun j =>
          factor.getD i 0 * ((dat.getD (j * n_chan + i) 0 : Int) : ℚ))))
    else .error .valueError
  else if n_sam = -1 then
    if 0 < n_chan ∧ dat.length % n_chan = 0 then
      .ok ((List.range n_chan).map (fun i =>
        (List.range (dat.length / n_chan)).map (fun j =>
          factor.getD i 0 * ((dat.getD (j * n_chan + i) 0 : Int) : ℚ))))
    else .error .valueError
  else .error .valueError

/-- Channel selector of BlackRock.return_dat: a single integer index or a
list of integer indices. -/
inductive ChanSel where
  | single (i : Int)
  | multi (l : List Int)
  deriving DecidableEq, Repr

/-- Result of indexing a 2-D numpy array with a channel selector: a single
integer index drops a dimension and yields a 1-D array, a list of indices
keeps both dimensions. -/
inductive NdArr where
  | oneD (v : List ℚ)
  | twoD (m : List (List ℚ))
  deriving DecidableEq, Repr

/-- Model of numpy basic row indexing: indices in [0, n) select that row,
negative indices in [-n, 0) select from the end, anything else raises
IndexError. -/
def npRowIndex (mat : List (List ℚ)) (i : Int) : Except PyErr (List ℚ) :=
  let n : Int := mat.length
  if 0 ≤ i ∧ i < n then .ok (mat.getD i.toNat [])
  else if -n ≤ i ∧ i < 0 then .ok (mat.getD (i + n).toNat [])
  else .error .indexError

/-- Model of numpy advanced indexing with a list of row indices: every
index is resolved by npRowIndex in order, and any out-of-bounds index
raises IndexError for the whole selection. -/
def npRowIndexList (mat : List (List ℚ)) : List Int → Except PyErr (List (List ℚ))
  | [] => .ok []
  | i :: rest =>
    match npRowIndex mat i with
    | .error e => .error e
    | .ok r =>
      match npRowIndexList mat rest with
      | .error e => .error e
      | .ok rs => .ok (r :: rs)

/-- Model of BlackRock.return_dat: NEV files raise NotImplementedError,
otherwise the full interleaved sample block is read through read_nsx and
the requested channel rows are extracted by numpy indexing, a single
index yielding a 1-D array and an index list a 2-D array. -/
def return_dat (ext : String) (file : List Nat) (BOData : Nat)
    (factor : List ℚ) (chan : ChanSel) (begsam endsam : Int) :
    Except PyErr NdArr :=
  if ext = ".nev" then .error .notImplementedError
  else
    match read_nsx file BOData factor begsam endsam with
    | .error e => .error e
    | .ok data =>
      match chan with
      | .single i =>
        match npRowIndex data i with
        | .error e => .error e
        | .ok r => .ok (.oneD r)
      | .multi l =>
        match npRowIndexList data l with
        | .error e => .error e
        | .ok rows => .ok (.twoD rows)

/-! ### blackrock.py, electrode table and scale factors -/

/-- Digital and analog range fields of one electrode descriptor of the
continuous-format extended header. -/
structure ElecInfo where
  MinDigiValue : Int
  MaxDigiValue : Int
  MinAnalogValue : Int
  MaxAnalogValue : Int
  deriving DecidableEq, Repr

/-- Model of convert_factor of blackrock.py: walk the electrode table in
order, assert the digital and analog symmetry invariants for each
descriptor, and append (max analog - min analog) / (max digital - min
digital) for each descriptor.  A violated assertion raises before the
scale of that descriptor is computed; a zero digital range raises
ZeroDivisionError. -/
def convert_factor : List ElecInfo → Except PyErr (List ℚ)
  | [] => .ok []
  | e :: rest =>
    if e.MaxDigiValue ≠ -e.MinDigiValue then .error .assertionError
    else if e.MaxAnalogValue ≠ -e.MinAnalogValue then .error .assertionError
    else if e.MaxDigiValue - e.MinDigiValue = 0 then .error .zeroDivisionError
    else
      match convert_factor rest with
      | .error err => .error err
      | .ok tl =>
        .ok ((((e.MaxAnalogValue - e.MinAnalogValue : Int) : ℚ) /
              ((e.MaxDigiValue - e.MinDigiValue : Int) : ℚ)) :: tl)

/-! ### blackrock.py, header timestamps -/

/-- Value of a Python datetime object: naive civil date and time fields. -/
structure PyDateTime where
  year : Int
  month : Int
  day : Int
  hour : Int
  minute : Int
  second : Int
  microsecond : Int
  deriving DecidableEq, Repr

/-- Number of days in a month of the proleptic Gregorian calendar. -/
def daysInMonth (y m : Int) : Int :=
  if m = 2 then
    if (y % 4 = 0 ∧ y % 100 ≠ 0) ∨ y % 400 = 0 then 29 else 28
  else if m = 4 ∨ m = 6 ∨ m = 9 ∨ m = 11 then 30
  else 31

/-- Model of the Python datetime constructor: validates the field ranges
and raises ValueError outside them. -/
def mkDatetime (y mo d h mi s us : Int) : Except PyErr PyDateTime :=
  if 1 ≤ y ∧ y ≤ 9999 ∧ 1 ≤ mo ∧ mo ≤ 12 ∧ 1 ≤ d ∧ d ≤ daysInMonth y mo ∧
     0 ≤ h ∧ h < 24 ∧ 0 ≤ mi ∧ mi < 60 ∧ 0 ≤ s ∧ s < 60 ∧
     0 ≤ us ∧ us < 1000000 then
    .ok ⟨y, mo, d, h, mi, s, us⟩
  else .error .valueError

/-- Days since 1970-01-01 of a proleptic Gregorian civil date. -/
def daysFromCivil (y m d : Int) : Int :=
  let y2 := if m ≤ 2 then y - 1 else y
  let era := (if 0 ≤ y2 then y2 else y2 - 399) / 400
  let yoe := y2 - era * 400
  let mp := (m + 9) % 12
  let doy := (153 * mp + 2) / 5 + d - 1
  let doe := yoe * 365 + yoe / 4 - yoe / 100 + doy
  era * 146097 + doe - 719468

/-- Civil date of a number of days since 1970-01-01. -/
def civilFromDays (z : Int) : Int × Int × Int :=
  let z2 := z + 719468
  let era := (if 0 ≤ z2 then z2 else z2 - 146096) / 146097
  let doe := z2 - era * 146097
  let yoe := (doe - doe / 1460 + doe / 36524 - doe / 146096) / 365
  let y := yoe + era * 400
  let doy := doe - (365 * yoe + yoe / 4 - yoe / 100)
  let mp := (5 * doy + 2) / 153
  let d := doy - (153 * mp + 2) / 5 + 1
  let m := mp + (if mp < 10 then 3 else -9)
  (if m ≤ 2 then y + 1 else y, m, d)

/-- Shift a naive datetime by a number of minutes, carrying through days,
months and years; seconds and microseconds are unchanged. -/
def shiftMinutes (dt : PyDateTime) (delta : Int) : PyDateTime :=
  let total := daysFromCivil dt.year dt.month dt.day * 1440 +
    dt.hour * 60 + dt.minute + delta
  let days := Int.ediv total 1440
  let rem := Int.emod total 1440
  let c := civilFromDays days
  { year := c.1, month := c.2.1, day := c.2.2, hour := Int.ediv rem 60,
    minute := Int.emod rem 60, second := dt.second,
    microsecond := dt.microsecond }

/-- Modelled from the spec: the fixed local reference zone.  The module
phypno.utils.timezone that blackrock.py imports (providing Eastern and
utc) is not among the sources; the spec says timestamps are converted to
a fixed local zone, modelled here as a constant offset of 300 minutes
behind UTC. -/
def easternOffsetMinutes : Int := -300

/-- Model of the timestamp decode of read_neuralcd: the packed 8 by 16
bit header timestamp (year, month, day of week, day, hour, minute,
second, millisecond) is interpreted as UTC, converted to the fixed local
zone and exposed with the zone information stripped.  Index 2 (day of
week) is skipped and index 7 is passed as the microsecond argument. -/
def neuralcdDateTime (t : List Nat) : Except PyErr PyDateTime :=
  match mkDatetime (t.getD 0 0) (t.getD 1 0) (t.getD 3 0) (t.getD 4 0)
    (t.getD 5 0) (t.getD 6 0) (t.getD 7 0) with
  | .error e => .error e
  | .ok d => .ok (shiftMinutes d easternOffsetMinutes)

/-- Model of the timestamp decode of read_neuralev: the same packed
layout is interpreted as already-local time, with no zone conversion.
Index 2 (day of week) is skipped and index 7 is passed as the
microsecond argument. -/
def neuralevDateTime (t : List Nat) : Except PyErr PyDateTime :=
  mkDatetime (t.getD 0 0) (t.getD 1 0) (t.getD 3 0) (t.getD 4 0)
    (t.getD 5 0) (t.getD 6 0) (t.getD 7 0)

/-! ### blackrock.py, event-format digital factor -/

/-- Model of the digital-factor decode of a NEUEVWAV extended header
record of read_neuralev: bytes 12 and 13 of the 32-byte record hold a
little-endian signed int16; the raw value 21516 is replaced by the
constant 152592.547 as a documented workaround for an encoder overflow,
any other raw value is used unchanged. -/
def digitalFactorOfRecord (record : List Nat) : ℚ :=
  let df := int16OfBytes (record.getD 12 0) (record.getD 13 0)
  if df = 21516 then (152592547 : ℚ) / 1000 else (df : ℚ)

/-! ### blackrock.py, return_hdr -/

/-- Header tuple returned by BlackRock.return_hdr. -/
structure BRHeaderTuple where
  subj_id : String
  start_time : PyDateTime
  s_freq : ℚ
  chan_name : List String
  n_samples : Int
  deriving DecidableEq, Repr

/-- Parsed raw header fed to BlackRock.return_hdr: the result of
read_neuralcd for a continuous-format file (with its electrode table of
labels and digital and analog ranges) or of read_neuralev for an
event-format file. -/
inductive ParsedOrig where
  | ns (SamplingFreq : ℚ) (DataPoints : Int)
      (ElectrodesInfo : List (String × ElecInfo)) (DateTime : PyDateTime)
  | nev (SampleRes : ℚ) (DataDuration : Int) (DateTime : PyDateTime)

/-- Model of BlackRock.return_hdr over an already-parsed raw header: a
continuous-format extension takes frequency, sample count and channel
labels from the parsed header and derives the scale factors (whose
assertions may raise); an event-format extension takes its fields from
the event header with the single channel name dummy; the subject
identifier is the empty string in both branches.  Any other extension
leaves the raw header unbound and raises when it is first used. -/
def return_hdr (ext : String) (orig : ParsedOrig) : Except PyErr BRHeaderTuple :=
  if ext.take 3 = ".ns" then
    match orig with
    | .ns sf dp elecs dt =>
      match convert_factor (elecs.map Prod.snd) with
      | .error e => .error e
      | .ok _ =>
        .ok { subj_id := "", start_time := dt, s_freq := sf,
              chan_name := elecs.map Prod.fst, n_samples := dp }
    | _ => .error .valueError
  else if ext = ".nev" then
    match orig with
    | .nev sr dd dt =>
        .ok { subj_id := "", start_time := dt, s_freq := sr,
              chan_name := ["dummy"], n_samples := dd }
    | _ => .error .valueError
  else .error .nameError

/-! ### ktlx.py, annotation (.ent) parsing -/

/-- Model of Python str.replace: replace every non-overlapping occurrence
of a pattern, scanning left to right and continuing after each
replacement. -/
def pyReplace (pat rep : List Nat) : List Nat → List Nat
  | [] => []
  | c :: rest =>
    if pat ≠ [] ∧ (c :: rest).take pat.length = pat then
      rep ++ pyReplace pat rep (rest.drop (pat.length - 1))
    else
      c :: pyReplace pat rep rest
termination_by s => s.length
decreasing_by
  · simp only [List.length_cons]
    have := List.length_drop (pat.length - 1) rest
    omega
  · simp

theorem length_dropWhile_le (p : Nat → Bool) :
    ∀ l : List Nat, (l.dropWhile p).length ≤ l.length := by
  intro l
  induction l with
  | nil => simp
  | cons c rest ih =>
    by_cases hc : p c
    · rw [List.dropWhile_cons_of_pos hc]
      simp only [List.length_cons]
      omega
    · rw [List.dropWhile_cons_of_neg hc]

/-- Character class of the regular expression used by read_ent: digits,
space, comma, hyphen and dot. -/
def entCharClass (c : Nat) : Bool :=
  (48 ≤ c && c ≤ 57) || c == 32 || c == 44 || c == 45 || c == 46

/-- Model of the re.sub call of read_ent: every occurrence of an opening
parenthesis, followed by a run of characters of the digits, space,
comma, hyphen, dot class, followed by a closing brace, is rewritten to
the run enclosed in square brackets.  The scan is left to right and
non-overlapping, like re.sub. -/
def entSub : List Nat → List Nat
  | [] => []
  | c :: rest =>
    if c = 40 then
      match h : rest.dropWhile entCharClass with
      | 125 :: tail => 91 :: (rest.takeWhile entCharClass ++ (93 :: entSub tail))
      | _ => c :: entSub rest
    else
      c :: entSub rest
termination_by s => s.length
decreasing_by
  · have h2 := length_dropWhile_le entCharClass rest
    rw [h] at h2
    simp only [List.length_cons] at h2 ⊢
    omega
  · simp
  · simp

/-- Heuristic translation chain applied by read_ent to a note payload
before evaluation: the eight str.replace steps followed by the re.sub
step, on byte lists. -/
def translateNote (s : List Nat) : List Nat :=
  let s1 := pyReplace [10] [32] s
  let s2 := pyReplace [92, 120, 100, 32] [] s1
  let s3 := pyReplace [40, 46] [123] s2
  let s4 := pyReplace [41] [125] s3
  let s5 := pyReplace [34, 44] [34, 32, 58] s4
  let s6 := pyReplace [123, 34] [34] s5
  let s7 := pyReplace [125, 44] [44] s6
  let s8 := pyReplace [125, 125] [125] s7
  entSub s8

/-- Model of unpack of one little-endian signed int32 from the front of
the stream: fewer than four remaining bytes raise struct.error. -/
def readI32 : List Nat → Except PyErr (Int × List Nat)
  | b0 :: b1 :: b2 :: b3 :: rest => .ok (int32OfBytes b0 b1 b2 b3, rest)
  | _ => .error .structError

theorem readI32_ok_length {s s' : List Nat} {v : Int}
    (h : readI32 s = .ok (v, s')) : s'.length + 4 = s.length := by
  match s with
  | b0 :: b1 :: b2 :: b3 :: rest =>
    simp only [readI32, Except.ok.injEq, Prod.mk.injEq] at h
    simp [← h.2]
  | [] => simp [readI32] at h
  | [b0] => simp [readI32] at h
  | [b0, b1] => simp [readI32] at h
  | [b0, b1, b2] => simp [readI32] at h

/-- Payload read of one read_ent record: length minus 16 bytes are read,
and a negative count makes Python file.read return everything that
remains. -/
def entPayload (len : Int) (s4 : List Nat) : List Nat :=
  if len - 16 < 0 then s4 else s4.take (len - 16).toNat

/-- Remaining stream after the payload read of one read_ent record. -/
def entRest (len : Int) (s4 : List Nat) : List Nat :=
  if len - 16 < 0 then [] else s4.drop (len - 16).toNat

theorem entRest_length_le (len : Int) (s4 : List Nat) :
    (entRest len s4).length ≤ s4.length := by
  unfold entRest
  split
  · simp
  · simp

/-- Model of the four sequential int32 header reads at the start of each
read_ent record: type, length, previous length and unused. -/
def readEntHdr (s : List Nat) :
    Except PyErr ((Int × Int × Int × Int) × List Nat) :=
  match readI32 s with
  | .error e => .error e
  | .ok (ty, s1) =>
    match readI32 s1 with
    | .error e => .error e
    | .ok (len, s2) =>
      match readI32 s2 with
      | .error e => .error e
      | .ok (pl, s3) =>
        match readI32 s3 with
        | .error e => .error e
        | .ok (un, s4) => .ok ((ty, len, pl, un), s4)

theorem readEntHdr_ok_length {s s4 : List Nat} {q : Int × Int × Int × Int}
    (h : readEntHdr s = .ok (q, s4)) : s4.length + 16 = s.length := by
  unfold readEntHdr at h
  split at h
  · simp at h
  · rename_i ty s1 h1
    split at h
    · simp at h
    · rename_i len s2 h2
      split at h
      · simp at h
      · rename_i pl s3 h3
        split at h
        · simp at h
        · rename_i un s4b h4
          simp only [Except.ok.injEq, Prod.mk.injEq] at h
          have l1 := readI32_ok_length h1
          have l2 := readI32_ok_length h2
          have l3 := readI32_ok_length h3
          have l4 := readI32_ok_length h4
          have hs : s4b.length = s4.length := by rw [h.2]
          omega

/-- Model of the record loop of read_ent, parameterized over the Python
literal evaluator ev (the host-language eval, which is not repository
code): read the four int32 header fields, stop on a record type of zero,
read the payload of length minus 16 bytes (a negative count reads the
whole remaining file, as Python file.read does), strip the two
terminating bytes, apply the heuristic translation and the evaluator,
keep the value when evaluation succeeds and silently skip the record
when it fails, then continue at the next record header. -/
def entLoop {V : Type} (ev : List Nat → Option V) (s : List Nat) :
    Except PyErr (List V) :=
  match h : readEntHdr s with
  | .error e => .error e
  | .ok ((ty, len, _, _), s4) =>
    if ty = 0 then .ok []
    else
      let payload := entPayload len s4
      let body := payload.take (payload.length - 2)
      match ev (translateNote body) with
      | some v =>
        match entLoop ev (entRest len s4) with
        | .error e => .error e
        | .ok tl => .ok (v :: tl)
      | none => entLoop ev (entRest len s4)
termination_by s.length
decreasing_by
  all_goals
    have l1 := readEntHdr_ok_length h
    have l5 := entRest_length_le len s4
    omega

/-- Model of read_ent of ktlx.py: skip the 352-byte generic header, then
run the record loop. -/
def read_ent {V : Type} (ev : List Nat → Option V) (file : List Nat) :
    Except PyErr (List V) :=
  entLoop ev (file.drop 352)

/-- Serialization of one annotation record: type, length (payload length
plus the 16 header bytes), previous length and unused fields as
little-endian int32, followed by the payload bytes. -/
def mkEntRecord (ty : Int) (payload : List Nat) : List Nat :=
  bytesOfInt32 ty ++ bytesOfInt32 ((payload.length : Int) + 16) ++
    bytesOfInt32 0 ++ bytesOfInt32 0 ++ payload

/-- Serialization of a whole annotation record stream: the records in
order, a terminating record header of type zero, and arbitrary trailing
bytes that a reader must ignore. -/
def mkEntStream (recs : List (Int × List Nat)) (trailing : List Nat) :
    List Nat :=
  (recs.map (fun r => mkEntRecord r.1 r.2)).flatten ++
    (bytesOfInt32 0 ++ bytesOfInt32 0 ++ bytesOfInt32 0 ++ bytesOfInt32 0) ++
    trailing

/-! ### ktlx.py, raw-data (.erd) delta codec -/

/-- Bits of a byte list, least significant bit of each byte first, as the
read_bits helper of read_erd produces them from the hex dump of the
delta mask. -/
def bitsOfBytes (bs : List Nat) : List Bool :=
  (bs.map (fun b => (List.range 8).map (fun j => (b % 256).testBit j))).flatten

/-- Absolute-value sentinel of the delta codec: the single byte 0x80 for
file schema 7, the two bytes 0xFF 0xFF for file schema 8 and 9. -/
def erdSentinel (schema : Nat) : List Nat :=
  if schema = 7 then [128] else [255, 255]

/-- Length of the delta mask of read_erd: ceil(number of channels / 8
plus one half) bytes. -/
def erdMaskLength (nChan : Nat) : Nat := (nChan + 11) / 8

/-- First pass of the delta codec of read_erd, over the per-channel pairs
of mask bit and previous value: read a two-byte field for a wide mask
bit and a one-byte field for a narrow one; a field equal to the
absolute-value sentinel flags the channel for the second pass (returned
as none), any other field is decoded as a signed delta of the field
width and added to the previous value of the channel; a truncated field
raises struct.error. -/
def erdPass1 (absd : List Nat) :
    List (Bool × Int) → List Nat → Except PyErr (List (Option Int) × List Nat)
  | [], s => .ok ([], s)
  | (m, p) :: rest, s =>
    let w : Nat := if m then 2 else 1
    let field := s.take w
    if field = absd then
      match erdPass1 absd rest (s.drop w) with
      | .error e => .error e
      | .ok (tl, s2) => .ok (none :: tl, s2)
    else if field.length = w then
      let d := if m then int16OfBytes (field.getD 0 0) (field.getD 1 0)
               else int8OfByte (field.getD 0 0)
      match erdPass1 absd rest (s.drop w) with
      | .error e => .error e
      | .ok (tl, s2) => .ok (some (p + d) :: tl, s2)
    else .error .structError

/-- Second pass of the delta codec of read_erd: walk the flag list in
channel order and read one little-endian signed int32 from the trailing
absolute-value block for every flagged channel; a truncated value raises
struct.error. -/
def erdPass2 : List (Option Int) → List Nat → Except PyErr (List Int × List Nat)
  | [], s => .ok ([], s)
  | some v :: rest, s =>
    match erdPass2 rest s with
    | .error e => .error e
    | .ok (tl, s2) => .ok (v :: tl, s2)
  | none :: rest, s =>
    let b := s.take 4
    if b.length = 4 then
      match erdPass2 rest (s.drop 4) with
      | .error e => .error e
      | .ok (tl, s2) =>
        .ok (int32OfBytes (b.getD 0 0) (b.getD 1 0) (b.getD 2 0) (b.getD 3 0) :: tl, s2)
    else .error .structError

/-- Result of decoding one sample row of read_erd: end of stream when the
event byte is absent, an error, or the decoded column together with the
remaining stream. -/
inductive ErdRowRes where
  | eos
  | err (e : PyErr)
  | row (col : List Int) (rest : List Nat)
  deriving DecidableEq, Repr

/-- Model of one iteration of the sample loop of read_erd: read the event
byte (an absent byte is the end-of-stream condition, a nonzero byte
fails the assertion), produce the delta mask (all narrow for schema 7,
read from the stream for schema 8 and 9), run the first pass over the
mask and previous values, index the flag list for every channel (a flag
list shorter than the channel count, from a truncated mask read, raises
IndexError in the second loop), then run the second pass to read the
absolute values. -/
def readErdRow (schema nChan : Nat) (prev : List Int) (s : List Nat) :
    ErdRowRes :=
  match s with
  | [] => .eos
  | b :: s1 =>
    if b ≠ 0 then .err .assertionError
    else
      let mz : List Bool × List Nat :=
        if schema = 7 then (List.replicate nChan false, s1)
        else ((bitsOfBytes (s1.take (erdMaskLength nChan))).take nChan,
              s1.drop (erdMaskLength nChan))
      match erdPass1 (erdSentinel schema) (mz.1.zip prev) mz.2 with
      | .error e => .err e
      | .ok (c, s3) =>
        if c.length < nChan then .err .indexError
        else
          match erdPass2 c s3 with
          | .error e => .err e
          | .ok (col, s4) => .row col s4

/-- Model of the sample loop of read_erd: decode rows one after another,
each row taking the previous decoded column as its reference (the output
array is zero-initialized, so the first row and every row left undecoded
after an early end of stream is all zeros); an assertion or struct
failure aborts the whole read with no data returned. -/
def erdRows (schema nChan : Nat) :
    Nat → List Int → List Nat → Except PyErr (List (List Int))
  | 0, _, _ => .ok []
  | k + 1, prev, s =>
    match readErdRow schema nChan prev s with
    | .eos => .ok (List.replicate (k + 1) (List.replicate nChan 0))
    | .err e => .error e
    | .row col s' =>
      match erdRows schema nChan k col s' with
      | .error e => .error e
      | .ok tl => .ok (col :: tl)

/-- Model of read_erd of ktlx.py, with the file schema and channel count
that read_hdr_file extracts from the same file passed explicitly: seek
to the start of the data (offset 4560 for schema 7, 8656 for schema 8
and 9) and decode the requested number of sample rows.  The result is
the list of decoded columns, the transpose of the numpy array of shape
(channels, samples) that the Python code returns. -/
def read_erd (schema nChan nSamples : Nat) (file : List Nat) :
    Except PyErr (List (List Int)) :=
  erdRows schema nChan nSamples (List.replicate nChan 0)
    (file.drop (if schema = 7 then 4560 else 8656))

/-- Statement of the delta codec given by the spec, first pass: a channel
whose field equals the absolute-value sentinel is flagged (none), a
narrow field decodes as previous value plus the signed 8-bit delta and a
wide field as previous value plus the signed 16-bit delta. -/
def flagSpec (absd : List Nat) :
    List (Bool × Int) → List (List Nat) → List (Option Int)
  | [], _ => []
  | _, [] => []
  | (m, p) :: mps, f :: fs =>
    if f = absd then none :: flagSpec absd mps fs
    else
      some (p + (if m then int16OfBytes (f.getD 0 0) (f.getD 1 0)
                 else int8OfByte (f.getD 0 0))) :: flagSpec absd mps fs

/-- Statement of the delta codec given by the spec, second pass: the
flagged channels take the little-endian signed int32 values of the
trailing absolute-value block, in flag order. -/
def fillAbs : List (Option Int) → List (List Nat) → List Int
  | [], _ => []
  | some v :: rest, avs => v :: fillAbs rest avs
  | none :: rest, avs =>
    (int32OfBytes ((avs.headD []).getD 0 0) ((avs.headD []).getD 1 0)
      ((avs.headD []).getD 2 0) ((avs.headD []).getD 3 0)) :: fillAbs rest avs.tail

/-! ### ktlx.py, Ktlx constructor -/

/-- Names bound in the local scope of the body of Ktlx.init: the method
parameters self and ktlx_dir. -/
def ktlxInitScope : List String := ["self", "ktlx_dir"]

/-- Model of the constructor of the Ktlx class: its first statement
evaluates isinstance(Ktlx_dir, str), and evaluating the name Ktlx_dir
looks it up in the local scope, which binds only self and ktlx_dir, so
the lookup fails with NameError before anything is read from disk.  The
branch that would store the directory and read the header directory is
unreachable. -/
def Ktlx_init (ktlx_dir : String) : Except PyErr String :=
  if "Ktlx_dir" ∈ ktlxInitScope then .ok ktlx_dir else .error .nameError

/-! ## Theorems for the claims -/

/-- C10: for every file successfully opened by the continuous-format or
event-format decoder, the subject identifier of the returned header is
the empty string, regardless of the file contents. -/
theorem return_hdr_subj_id_empty (ext : String) (orig : ParsedOrig)
    (t : BRHeaderTuple) (h : return_hdr ext orig = .ok t) : t.subj_id = "" := by
  unfold return_hdr at h
  split at h
  · cases orig with
    | ns sf dp elecs dt =>
      dsimp only at h
      cases hcf : convert_factor (elecs.map Prod.snd) with
      | error e => rw [hcf] at h; simp at h
      | ok fs =>
        rw [hcf] at h
        simp only [Except.ok.injEq] at h
        rw [← h]
    | nev sr dd dt => simp at h
  · split at h
    · cases orig with
      | ns sf dp elecs dt => simp at h
      | nev sr dd dt =>
        dsimp only at h
        simp only [Except.ok.injEq] at h
        rw [← h]
    · simp at h

theorem return_hdr_subj_id_empty_witness :
    ({ subj_id := "", start_time := ⟨2000, 1, 1, 0, 0, 0, 0⟩, s_freq := 1,
       chan_name := ["dummy"], n_samples := 10 } : BRHeaderTuple).subj_id = "" :=
  return_hdr_subj_id_empty ".nev" (.nev 1 10 ⟨2000, 1, 1, 0, 0, 0, 0⟩) _ rfl

/-- C8: the constructor of the segmented-format decoder references the
undefined name Ktlx_dir in its isinstance guard, so opening any
recording directory given as a string raises NameError instead of
succeeding; header metadata can never be obtained. -/
theorem ktlx_init_always_nameError (d : String) :
    Ktlx_init d = .error .nameError := rfl

/-- C5: the digital-factor field of an event-format spike-channel record
decodes the raw signed int16 value 21516 to exactly 152592.547, and any
other raw int16 value to itself unchanged. -/
theorem digital_factor_decode (pre : List Nat) (raw : Int) (rest : List Nat)
    (hpre : pre.length = 12) (h1 : -32768 ≤ raw) (h2 : raw < 32768) :
    digitalFactorOfRecord (pre ++ (bytesOfInt16 raw ++ rest)) =
      if raw = 21516 then (152592547 : ℚ) / 1000 else (raw : ℚ) := by
  have hround : int16OfBytes ((bytesOfInt16 raw).getD 0 0)
      ((bytesOfInt16 raw).getD 1 0) = raw := by
    unfold bytesOfInt16 int16OfBytes
    simp only [List.getD_cons_zero, List.getD_cons_succ]
    split <;> omega
  unfold digitalFactorOfRecord
  have hblen : (bytesOfInt16 raw).length = 2 := by
    unfold bytesOfInt16
    simp
  have g12 : (pre ++ (bytesOfInt16 raw ++ rest)).getD 12 0 =
      (bytesOfInt16 raw).getD 0 0 := by
    rw [List.getD_append_right pre (bytesOfInt16 raw ++ rest) 0 12 (by omega),
      hpre]
    simp only [Nat.sub_self]
    rw [List.getD_append (bytesOfInt16 raw) rest 0 0 (by omega)]
  have g13 : (pre ++ (bytesOfInt16 raw ++ rest)).getD 13 0 =
      (bytesOfInt16 raw).getD 1 0 := by
    rw [List.getD_append_right pre (bytesOfInt16 raw ++ rest) 0 13 (by omega),
      hpre]
    rw [show 13 - 12 = 1 from rfl]
    rw [List.getD_append (bytesOfInt16 raw) rest 0 1 (by omega)]
  rw [g12, g13, hround]

theorem digital_factor_decode_witness :
    digitalFactorOfRecord (List.replicate 12 0 ++ (bytesOfInt16 21516 ++ [])) =
      (152592547 : ℚ) / 1000 ∧
    digitalFactorOfRecord (List.replicate 12 0 ++ (bytesOfInt16 (-7) ++ [])) =
      (-7 : ℚ) := by
  constructor
  · have := digital_factor_decode (List.replicate 12 0) 21516 []
      (by simp) (by decide) (by decide)
    simpa using this
  · have := digital_factor_decode (List.replicate 12 0) (-7) []
      (by simp) (by decide) (by decide)
    simpa using this

theorem convert_factor_ok (elecs : List ElecInfo) (fs : List ℚ)
    (h : convert_factor elecs = .ok fs) :
    ∀ k, k < elecs.length →
      ((elecs.getD k ⟨0, 0, 0, 0⟩).MaxDigiValue =
          -(elecs.getD k ⟨0, 0, 0, 0⟩).MinDigiValue ∧
       (elecs.getD k ⟨0, 0, 0, 0⟩).MaxAnalogValue =
          -(elecs.getD k ⟨0, 0, 0, 0⟩).MinAnalogValue) ∧
      fs.getD k 0 = (((elecs.getD k ⟨0, 0, 0, 0⟩).MaxAnalogValue -
          (elecs.getD k ⟨0, 0, 0, 0⟩).MinAnalogValue : Int) : ℚ) /
        (((elecs.getD k ⟨0, 0, 0, 0⟩).MaxDigiValue -
          (elecs.getD k ⟨0, 0, 0, 0⟩).MinDigiValue : Int) : ℚ) := by
  induction elecs generalizing fs with
  | nil => intro k hk; simp at hk
  | cons a rest ih =>
    intro k hk
    unfold convert_factor at h
    split at h
    · simp at h
    · split at h
      · simp at h
      · split at h
        · simp at h
        · rename_i hc1 hc2 hc3
          cases hr : convert_factor rest with
          | error err => rw [hr] at h; simp at h
          | ok tl =>
            rw [hr] at h
            simp only [Except.ok.injEq] at h
            rw [← h]
            cases k with
            | zero =>
              refine ⟨⟨not_not.mp hc1, not_not.mp hc2⟩, ?_⟩
              simp [List.getD_cons_zero]
            | succ k2 =>
              simp only [List.getD_cons_succ]
              exact ih tl hr k2 (by simp at hk; omega)

theorem convert_factor_err : ∀ (pre : List ElecInfo) (e : ElecInfo)
    (post : List ElecInfo),
    (∀ e2 ∈ pre, e2.MaxDigiValue = -e2.MinDigiValue ∧
      e2.MaxAnalogValue = -e2.MinAnalogValue ∧
      e2.MaxDigiValue - e2.MinDigiValue ≠ 0) →
    ¬(e.MaxDigiValue = -e.MinDigiValue ∧
      e.MaxAnalogValue = -e.MinAnalogValue) →
    convert_factor (pre ++ e :: post) = .error .assertionError := by
  intro pre
  induction pre with
  | nil =>
    intro e post hpre he
    simp only [List.nil_append]
    unfold convert_factor
    by_cases h1 : e.MaxDigiValue ≠ -e.MinDigiValue
    · rw [if_pos h1]
    · rw [if_neg h1, if_pos (by tauto)]
  | cons a pre2 ih =>
    intro e post hpre he
    obtain ⟨ha1, ha2, ha3⟩ := hpre a (List.mem_cons_self a pre2)
    simp only [List.cons_append]
    unfold convert_factor
    rw [if_neg (not_not.mpr ha1), if_neg (not_not.mpr ha2), if_neg ha3]
    rw [ih e post (fun x hx => hpre x (List.mem_cons_of_mem a hx)) he]

/-- C2: for every electrode descriptor in the continuous-format table
satisfying both symmetry equations, the derived scale factor equals
(max analog - min analog) / (max digital - min digital); a descriptor
violating either equation makes convert_factor raise the assertion
error (the FormatError of the spec), so no scale list is produced at
all and in particular no scale for that descriptor. -/
theorem convert_factor_scale (elecs : List ElecInfo) :
    (∀ fs, convert_factor elecs = .ok fs →
      ∀ k, k < elecs.length →
        ((elecs.getD k ⟨0, 0, 0, 0⟩).MaxDigiValue =
            -(elecs.getD k ⟨0, 0, 0, 0⟩).MinDigiValue ∧
         (elecs.getD k ⟨0, 0, 0, 0⟩).MaxAnalogValue =
            -(elecs.getD k ⟨0, 0, 0, 0⟩).MinAnalogValue) ∧
        fs.getD k 0 = (((elecs.getD k ⟨0, 0, 0, 0⟩).MaxAnalogValue -
            (elecs.getD k ⟨0, 0, 0, 0⟩).MinAnalogValue : Int) : ℚ) /
          (((elecs.getD k ⟨0, 0, 0, 0⟩).MaxDigiValue -
            (elecs.getD k ⟨0, 0, 0, 0⟩).MinDigiValue : Int) : ℚ)) ∧
    (∀ (pre : List ElecInfo) (e : ElecInfo) (post : List ElecInfo),
      elecs = pre ++ e :: post →
      (∀ e2 ∈ pre, e2.MaxDigiValue = -e2.MinDigiValue ∧
        e2.MaxAnalogValue = -e2.MinAnalogValue ∧
        e2.MaxDigiValue - e2.MinDigiValue ≠ 0) →
      ¬(e.MaxDigiValue = -e.MinDigiValue ∧
        e.MaxAnalogValue = -e.MinAnalogValue) →
      convert_factor elecs = .error .assertionError) :=
  ⟨fun fs h k hk => convert_factor_ok elecs fs h k hk,
   fun pre e post heq hpre he => heq ▸ convert_factor_err pre e post hpre he⟩

theorem convert_factor_scale_witness :
    convert_factor [⟨-32767, 32767, -5000, 5000⟩, ⟨-10, 11, -5, 5⟩] =
      .error .assertionError :=
  (convert_factor_scale [⟨-32767, 32767, -5000, 5000⟩, ⟨-10, 11, -5, 5⟩]).2
    [⟨-32767, 32767, -5000, 5000⟩] ⟨-10, 11, -5, 5⟩ [] rfl
    (by intro e2 he2; simp at he2; rw [he2]; refine ⟨rfl, rfl, by decide⟩)
    (by decide)

/-- C6: the continuous-format header timestamp decoder interprets the
packed fields as UTC, converts to the fixed local zone and strips the
zone, while the event-format decoder interprets the same packed fields
as already-local time with no conversion: the first decoder equals the
second followed by exactly the fixed zone shift, and on the concrete
raw timestamp 2014-01-01 02:30 the event decoder returns it unchanged
while the continuous decoder returns 2013-12-31 21:30. -/
theorem neuralcd_shift_of_neuralev :
    (∀ t : List Nat, neuralcdDateTime t =
      (neuralevDateTime t).map (fun d => shiftMinutes d easternOffsetMinutes)) ∧
    neuralevDateTime [2014, 1, 3, 1, 2, 30, 0, 0] =
      .ok ⟨2014, 1, 1, 2, 30, 0, 0⟩ ∧
    neuralcdDateTime [2014, 1, 3, 1, 2, 30, 0, 0] =
      .ok ⟨2013, 12, 31, 21, 30, 0, 0⟩ := by
  refine ⟨fun t => ?_, by rfl, by rfl⟩
  unfold neuralcdDateTime neuralevDateTime
  cases h : mkDatetime ((t.getD 0 0 : Nat) : Int) ((t.getD 1 0 : Nat) : Int)
      ((t.getD 3 0 : Nat) : Int) ((t.getD 4 0 : Nat) : Int)
      ((t.getD 5 0 : Nat) : Int) ((t.getD 6 0 : Nat) : Int)
      ((t.getD 7 0 : Nat) : Int) with
  | error e => simp [h, Bind.bind, Except.bind, Except.map]
  | ok d => simp [h, Bind.bind, Except.bind, Except.map]

theorem getD_range_map {α : Type} (f : Nat → α) (k m : Nat) (d : α)
    (h : m < k) : ((List.range k).map f).getD m d = f m := by
  rw [List.getD_eq_getElem?_getD, List.getElem?_map, List.getElem?_range h]
  rfl

theorem fromfileInt16_all (file : List Nat) (pos : Nat) (count : Int)
    (h0 : 0 ≤ count) (hle : count.toNat ≤ (file.length - pos) / 2) :
    fromfileInt16 file pos count =
      (List.range count.toNat).map (fun j => readInt16At file (pos + 2 * j)) := by
  simp only [fromfileInt16]
  rw [if_neg (not_lt.mpr h0), min_eq_left hle]

theorem fromfileInt16_short (file : List Nat) (pos : Nat) (count : Int)
    (h0 : 0 ≤ count) (hge : (file.length - pos) / 2 ≤ count.toNat) :
    fromfileInt16 file pos count =
      (List.range ((file.length - pos) / 2)).map
        (fun j => readInt16At file (pos + 2 * j)) := by
  simp only [fromfileInt16]
  rw [if_neg (not_lt.mpr h0), min_eq_right hge]

theorem nsx_avail (file : List Nat) (BOData : Nat) (n b nsamp : Nat)
    (hb : b ≤ nsamp) (hlen : file.length = BOData + 2 * n * nsamp) :
    (file.length - (BOData + n * 2 * b)) / 2 = n * (nsamp - b) := by
  rw [hlen]
  have h1 : n * b ≤ n * nsamp := Nat.mul_le_mul_left _ hb
  have h2 : 2 * n * nsamp = 2 * (n * nsamp) := by ring
  have h3 : n * 2 * b = 2 * (n * b) := by ring
  rw [h2, h3, Nat.mul_sub]
  omega

/-- Full characterization of a read of the continuous-format data region
when the requested range lies inside the recording: read_nsx succeeds
and entry (i, j) of the matrix is the scale factor of channel i times
the little-endian int16 at byte offset BOData plus channel count times 2
times first sample, plus 2 times (j times channel count plus i), exactly
the column-major layout of the interleaved samples. -/
theorem read_nsx_full (file : List Nat) (BOData : Nat) (factor : List ℚ)
    (b e nsamp : Nat) (hbe : b ≤ e) (hen : e ≤ nsamp)
    (hlen : file.length = BOData + 2 * factor.length * nsamp) :
    read_nsx file BOData factor (b : Int) (e : Int) =
      .ok ((List.range factor.length).map (fun i =>
        (List.range (e - b)).map (fun j =>
          factor.getD i 0 *
            ((readInt16At file
              (BOData + factor.length * 2 * b +
                2 * (j * factor.length + i)) : Int) : ℚ)))) := by
  have hcast : ((BOData : Int) + (factor.length : Int) * 2 * (b : Int)) =
      ((BOData + factor.length * 2 * b : Nat) : Int) := by
    push_cast
    ring
  have hpos : ¬ ((BOData : Int) + (factor.length : Int) * 2 * (b : Int) < 0) := by
    rw [hcast]
    exact not_lt.mpr (Int.natCast_nonneg _)
  have hsam : (0 : Int) ≤ (e : Int) - (b : Int) := by omega
  have hcnt : ((factor.length : Int) * ((e : Int) - (b : Int))) =
      ((factor.length * (e - b) : Nat) : Int) := by
    push_cast [Nat.cast_sub hbe]
    ring
  have havail := nsx_avail file BOData factor.length b nsamp
    (le_trans hbe hen) hlen
  have hkey : factor.length * (e - b) ≤ factor.length * (nsamp - b) :=
    Nat.mul_le_mul_left _ (by omega)
  have htn : ((e : Int) - (b : Int)).toNat = e - b := by omega
  simp only [read_nsx]
  rw [if_neg hpos, if_pos hsam, hcast, Int.toNat_natCast, hcnt]
  rw [fromfileInt16_all file _ _ (Int.natCast_nonneg _)
    (by rw [Int.toNat_natCast, havail]; exact hkey)]
  rw [Int.toNat_natCast, htn]
  rw [if_pos (by simp)]
  refine congrArg Except.ok ?_
  refine List.map_congr_left (fun i hi => ?_)
  refine List.map_congr_left (fun j hj => ?_)
  rw [List.mem_range] at hi hj
  have hbound : j * factor.length + i < factor.length * (e - b) := by
    calc j * factor.length + i < j * factor.length + factor.length := by omega
      _ = (j + 1) * factor.length := (Nat.succ_mul j factor.length).symm
      _ ≤ (e - b) * factor.length := Nat.mul_le_mul_right _ (by omega)
      _ = factor.length * (e - b) := Nat.mul_comm _ _
  rw [getD_range_map _ _ _ _ hbound]

/-- Requesting samples past the end of the data region makes the numpy
read come up short and the reshape fail with ValueError: no truncated
matrix is ever produced. -/
theorem read_nsx_overrun (file : List Nat) (BOData : Nat) (factor : List ℚ)
    (b nsamp : Nat) (e : Int) (hn : 1 ≤ factor.length) (hb : b ≤ nsamp)
    (he : (nsamp : Int) < e)
    (hlen : file.length = BOData + 2 * factor.length * nsamp) :
    read_nsx file BOData factor (b : Int) e = .error .valueError := by
  have hcast : ((BOData : Int) + (factor.length : Int) * 2 * (b : Int)) =
      ((BOData + factor.length * 2 * b : Nat) : Int) := by
    push_cast
    ring
  have hpos : ¬ ((BOData : Int) + (factor.length : Int) * 2 * (b : Int) < 0) := by
    rw [hcast]
    exact not_lt.mpr (Int.natCast_nonneg _)
  have hsam : (0 : Int) ≤ e - (b : Int) := by omega
  have hTgt : nsamp - b < (e - (b : Int)).toNat := by omega
  have hcnt : ((factor.length : Int) * (e - (b : Int))).toNat =
      factor.length * (e - (b : Int)).toNat := by
    rw [show ((factor.length : Int) * (e - (b : Int))) =
        ((factor.length * (e - (b : Int)).toNat : Nat) : Int) by
      rw [Nat.cast_mul, Int.toNat_of_nonneg hsam]]
    exact Int.toNat_natCast _
  have havail := nsx_avail file BOData factor.length b nsamp hb hlen
  simp only [read_nsx]
  rw [if_neg hpos, if_pos hsam, hcast, Int.toNat_natCast]
  rw [fromfileInt16_short file _ _ (mul_nonneg (Int.natCast_nonneg _) hsam)
    (by rw [hcnt, havail]; exact Nat.mul_le_mul_left _ (le_of_lt hTgt))]
  rw [havail]
  rw [if_neg ?_]
  simp only [List.length_map, List.length_range]
  exact Nat.ne_of_lt (mul_lt_mul_of_pos_left hTgt (by omega))

/-- C1: with a single integer channel selector, return_dat returns a 1-D
array (numpy integer indexing drops the channel axis), not the 2-D
matrix of shape (1, samples) that the claim and the docstring of
return_dat describe; the same request with a one-element list selector
returns the 2-D matrix. -/
theorem return_dat_single_returns_1d :
    return_dat ".ns2" [1, 0, 2, 0, 3, 0, 4, 0, 5, 0, 6, 0] 0 [1, 1]
      (.single 0) 0 3 = .ok (.oneD [1, 3, 5]) ∧
    return_dat ".ns2" [1, 0, 2, 0, 3, 0, 4, 0, 5, 0, 6, 0] 0 [1, 1]
      (.multi [0]) 0 3 = .ok (.twoD [[1, 3, 5]]) := by
  have h1 := read_nsx_full [1, 0, 2, 0, 3, 0, 4, 0, 5, 0, 6, 0] 0 [1, 1]
    0 3 3 (by omega) (le_refl 3) (by norm_num)
  push_cast at h1
  have h2 : read_nsx [1, 0, 2, 0, 3, 0, 4, 0, 5, 0, 6, 0] 0 [1, 1]
      (0 : Int) (3 : Int) = .ok [[1, 3, 5], [2, 4, 6]] := by
    rw [h1]
    norm_num [List.range_succ, readInt16At, int16OfBytes]
  constructor
  · unfold return_dat
    rw [if_neg (by decide), h2]
    norm_num [npRowIndex]
  · unfold return_dat
    rw [if_neg (by decide), h2]
    norm_num [npRowIndexList, npRowIndex]

/-- C3 counterexample: a read with the single channel index -1, which
lies outside [0, number of channels), does not fail with an out-of-range
error: numpy negative indexing accepts it and returns the last channel
row. -/
theorem return_dat_negative_channel_ok :
    return_dat ".ns2" [1, 0, 2, 0, 3, 0, 4, 0, 5, 0, 6, 0] 0 [1, 1]
      (.single (-1)) 0 3 = .ok (.oneD [2, 4, 6]) := by
  have h1 := read_nsx_full [1, 0, 2, 0, 3, 0, 4, 0, 5, 0, 6, 0] 0 [1, 1]
    0 3 3 (by omega) (le_refl 3) (by norm_num)
  push_cast at h1
  have h2 : read_nsx [1, 0, 2, 0, 3, 0, 4, 0, 5, 0, 6, 0] 0 [1, 1]
      (0 : Int) (3 : Int) = .ok [[1, 3, 5], [2, 4, 6]] := by
    rw [h1]
    norm_num [List.range_succ, readInt16At, int16OfBytes]
  unfold return_dat
  rw [if_neg (by decide), h2]
  norm_num [npRowIndex]

/-- C3 amended: channel indices are not validated against
[0, len(chan_name)): a non-negative index at or past the channel count
fails with IndexError and an index below minus the channel count fails
the same way, but negative indices in [-n, 0) are silently accepted by
numpy indexing; a request with last_sample past n_samples (data region
ending at end of file) fails with the numpy reshape ValueError rather
than a dedicated range check, so no truncated matrix is returned;
first_sample greater than last_sample is not itself checked. -/
theorem return_dat_range_checks (ext : String) (file : List Nat)
    (BOData : Nat) (factor : List ℚ) (nsamp : Nat) (hext : ext ≠ ".nev")
    (hn : 1 ≤ factor.length)
    (hlen : file.length = BOData + 2 * factor.length * nsamp) :
    (∀ (i : Int) (b e : Nat), b ≤ e → e ≤ nsamp →
      ((factor.length : Int) ≤ i ∨ i < -(factor.length : Int)) →
      return_dat ext file BOData factor (.single i) (b : Int) (e : Int) =
        .error .indexError) ∧
    (∀ (chan : ChanSel) (b : Nat) (e : Int), b ≤ nsamp → (nsamp : Int) < e →
      return_dat ext file BOData factor chan (b : Int) e =
        .error .valueError) := by
  constructor
  · intro i b e hbe hen hi
    unfold return_dat
    rw [if_neg hext, read_nsx_full file BOData factor b e nsamp hbe hen hlen]
    have hnp : npRowIndex ((List.range factor.length).map (fun i =>
        (List.range (e - b)).map (fun j =>
          factor.getD i 0 *
            ((readInt16At file
              (BOData + factor.length * 2 * b +
                2 * (j * factor.length + i)) : Int) : ℚ)))) i =
        .error .indexError := by
      unfold npRowIndex
      simp only [List.length_map, List.length_range]
      rw [if_neg (by omega), if_neg (by omega)]
    dsimp only
    rw [hnp]
  · intro chan b e hb he
    unfold return_dat
    rw [if_neg hext, read_nsx_overrun file BOData factor b nsamp e hn hb he hlen]

theorem return_dat_range_checks_witness :
    return_dat ".ns2" [1, 0, 2, 0, 3, 0, 4, 0, 5, 0, 6, 0] 0 [1, 1]
      (.single 2) 0 3 = .error .indexError ∧
    return_dat ".ns2" [1, 0, 2, 0, 3, 0, 4, 0, 5, 0, 6, 0] 0 [1, 1]
      (.multi [0, 1]) 0 4 = .error .valueError :=
  ⟨(return_dat_range_checks ".ns2" [1, 0, 2, 0, 3, 0, 4, 0, 5, 0, 6, 0] 0
      [1, 1] 3 (by decide) (by norm_num) (by norm_num)).1 2 0 3
      (by norm_num) (le_refl 3) (by norm_num),
   (return_dat_range_checks ".ns2" [1, 0, 2, 0, 3, 0, 4, 0, 5, 0, 6, 0] 0
      [1, 1] 3 (by decide) (by norm_num) (by norm_num)).2 (.multi [0, 1]) 0 4
      (by norm_num) (by norm_num)⟩

theorem int32_roundtrip (v : Int) (h1 : -2147483648 ≤ v)
    (h2 : v < 2147483648) :
    int32OfBytes ((v % 4294967296).toNat % 256)
      (((v % 4294967296).toNat / 256) % 256)
      (((v % 4294967296).toNat / 65536) % 256)
      (((v % 4294967296).toNat / 16777216) % 256) = v := by
  simp only [int32OfBytes]
  split <;> omega

theorem readI32_bytes (v : Int) (rest : List Nat)
    (h1 : -2147483648 ≤ v) (h2 : v < 2147483648) :
    readI32 (bytesOfInt32 v ++ rest) = .ok (v, rest) := by
  unfold bytesOfInt32
  simp only [List.cons_append, List.nil_append, readI32]
  rw [int32_roundtrip v h1 h2]

theorem readEntHdr_bytes (ty len : Int) (rest : List Nat)
    (hty1 : -2147483648 ≤ ty) (hty2 : ty < 2147483648)
    (hl1 : -2147483648 ≤ len) (hl2 : len < 2147483648) :
    readEntHdr (bytesOfInt32 ty ++ (bytesOfInt32 len ++
      (bytesOfInt32 0 ++ (bytesOfInt32 0 ++ rest)))) =
      .ok ((ty, len, 0, 0), rest) := by
  unfold readEntHdr
  rw [readI32_bytes ty _ hty1 hty2]
  dsimp only
  rw [readI32_bytes len _ hl1 hl2]
  dsimp only
  rw [readI32_bytes 0 _ (by decide) (by decide)]
  dsimp only
  rw [readI32_bytes 0 _ (by decide) (by decide)]

theorem entLoop_base {V : Type} (ev : List Nat → Option V)
    (trailing : List Nat) : entLoop ev (mkEntStream [] trailing) = .ok [] := by
  unfold mkEntStream
  simp only [List.map_nil, List.flatten_nil, List.nil_append, List.append_assoc]
  unfold entLoop
  rw [readEntHdr_bytes 0 0 trailing (by decide) (by decide) (by decide)
    (by decide)]
  dsimp only
  norm_num

theorem entPayload_exact (p t : List Nat) :
    entPayload ((p.length : Int) + 16) (p ++ t) = p := by
  unfold entPayload
  rw [if_neg (by omega)]
  have h : ((p.length : Int) + 16 - 16).toNat = p.length := by omega
  rw [h, List.take_left]

theorem entRest_exact (p t : List Nat) :
    entRest ((p.length : Int) + 16) (p ++ t) = t := by
  unfold entRest
  rw [if_neg (by omega)]
  have h : ((p.length : Int) + 16 - 16).toNat = p.length := by omega
  rw [h, List.drop_left]

theorem entLoop_spec {V : Type} (ev : List Nat → Option V)
    (recs : List (Int × List Nat)) (trailing : List Nat)
    (hrec : ∀ r ∈ recs, r.1 ≠ 0 ∧ -2147483648 ≤ r.1 ∧ r.1 < 2147483648 ∧
        (r.2.length : Int) + 16 < 2147483648) :
    entLoop ev (mkEntStream recs trailing) =
      .ok (recs.filterMap
        (fun r => ev (translateNote (r.2.take (r.2.length - 2))))) := by
  induction recs with
  | nil => simpa using entLoop_base ev trailing
  | cons r recs2 ih =>
    obtain ⟨ty, p⟩ := r
    obtain ⟨hty0, hty1, hty2, hlen2⟩ := hrec (ty, p) (List.mem_cons_self _ _)
    have ih2 := ih (fun x hx => hrec x (List.mem_cons_of_mem _ hx))
    simp only [mkEntStream, mkEntRecord, List.map_cons, List.flatten_cons,
      List.append_assoc] at ih2 ⊢
    unfold entLoop
    rw [readEntHdr_bytes ty ((p.length : Int) + 16) _ hty1 hty2
      (by omega) hlen2]
    dsimp only
    rw [if_neg hty0]
    rw [entPayload_exact p _, entRest_exact p _]
    cases hv : ev (translateNote (p.take (p.length - 2))) with
    | some v =>
      dsimp only
      rw [ih2]
      simp [List.filterMap_cons, hv]
    | none =>
      dsimp only
      rw [ih2]
      simp [List.filterMap_cons, hv]

theorem flagSpec_length (absd : List Nat) :
    ∀ (mps : List (Bool × Int)) (fields : List (List Nat)),
      (flagSpec absd mps fields).length = min mps.length fields.length := by
  intro mps
  induction mps with
  | nil => intro fields; simp [flagSpec]
  | cons mp mps2 ih =>
    intro fields
    cases fields with
    | nil => simp [flagSpec]
    | cons f fs =>
      obtain ⟨m, p⟩ := mp
      unfold flagSpec
      by_cases hf : f = absd
      · rw [if_pos hf]
        simp only [List.length_cons, ih fs]
        omega
      · rw [if_neg hf]
        simp only [List.length_cons, ih fs]
        omega

theorem erdPass1_spec (absd : List Nat) :
    ∀ (mask : List Bool) (prev : List Int) (fields : List (List Nat))
      (t : List Nat),
      mask.length = prev.length → fields.length = mask.length →
      (∀ k, k < mask.length →
        (fields.getD k []).length = (if mask.getD k false then 2 else 1)) →
      erdPass1 absd (mask.zip prev) (fields.flatten ++ t) =
        .ok (flagSpec absd (mask.zip prev) fields, t) := by
  intro mask
  induction mask with
  | nil =>
    intro prev fields t hmp hf hw
    have hfe : fields = [] := by simpa using hf
    subst hfe
    simp [erdPass1, flagSpec]
  | cons m mask2 ih =>
    intro prev fields t hmp hf hw
    cases prev with
    | nil => simp at hmp
    | cons p prev2 =>
      cases fields with
      | nil => simp at hf
      | cons f fs =>
        have hw0 := hw 0 (by simp)
        simp only [List.getD_cons_zero] at hw0
        have hwk : ∀ k, k < mask2.length →
            (fs.getD k []).length = (if mask2.getD k false then 2 else 1) := by
          intro k hk
          have := hw (k + 1) (by simp only [List.length_cons]; omega)
          simpa using this
        simp only [List.zip_cons_cons, List.flatten_cons, List.append_assoc]
        unfold erdPass1
        rw [show (if m then 2 else 1) = f.length from hw0.symm]
        dsimp only
        rw [List.take_left, List.drop_left]
        by_cases hf2 : f = absd
        · rw [if_pos hf2]
          rw [ih prev2 fs t (by simpa using hmp) (by simpa using hf) hwk]
          dsimp only
          simp [flagSpec, hf2]
        · rw [if_neg hf2, if_pos rfl]
          rw [ih prev2 fs t (by simpa using hmp) (by simpa using hf) hwk]
          dsimp only
          simp [flagSpec, hf2]

theorem erdPass2_spec :
    ∀ (c : List (Option Int)) (avs : List (List Nat)) (t : List Nat),
      (∀ a ∈ avs, a.length = 4) → avs.length = c.count none →
      erdPass2 c (avs.flatten ++ t) = .ok (fillAbs c avs, t) := by
  intro c
  induction c with
  | nil =>
    intro avs t havs hcount
    have hae : avs = [] := List.length_eq_zero.mp (by simpa using hcount)
    subst hae
    simp [erdPass2, fillAbs]
  | cons o c2 ih =>
    intro avs t havs hcount
    cases o with
    | some v =>
      unfold erdPass2
      rw [ih avs t havs (by rw [hcount]; simp [List.count_cons])]
      dsimp only
      simp [fillAbs]
    | none =>
      have hlen : avs.length = c2.count none + 1 := by
        rw [hcount]
        simp [List.count_cons]
      cases avs with
      | nil => simp at hlen
      | cons a avs2 =>
        have ha := havs a (List.mem_cons_self _ _)
        unfold erdPass2
        simp only [List.flatten_cons, List.append_assoc]
        rw [show (4 : Nat) = a.length from ha.symm, List.take_left,
          List.drop_left, if_pos rfl]
        rw [ih avs2 t (fun x hx => havs x (List.mem_cons_of_mem _ hx))
          (by simpa using hlen)]
        dsimp only
        simp [fillAbs]

/-- C4: one decoded row of the segmented-format delta codec, on a stream
laid out as event byte, delta mask (schema 8 and 9 only), per-channel
delta or sentinel fields, and trailing absolute-value block: a channel
whose mask bit is 0 and whose 1-byte field is not the sentinel decodes
to previous value plus the signed 8-bit delta, a channel whose mask bit
is 1 and whose 2-byte field is not the sentinel decodes to previous
value plus the signed 16-bit delta, and a channel whose field equals the
absolute-value sentinel of the active width (0x80 for schema 7, 0xFFFF
for schema 8 and 9) instead takes a little-endian signed 32-bit value
from the trailing block, the flagged channels being filled in flag order
in a second pass after all delta fields of the row. -/
theorem readErdRow_codec (schema nChan : Nat) (prev : List Int)
    (maskBytes : List Nat) (maskBits : List Bool) (fields : List (List Nat))
    (avs : List (List Nat)) (rest : List Nat)
    (hschema : (schema = 7 ∧ maskBytes = [] ∧
        maskBits = List.replicate nChan false) ∨
      ((schema = 8 ∨ schema = 9) ∧
        maskBytes.length = erdMaskLength nChan ∧
        (bitsOfBytes maskBytes).take nChan = maskBits))
    (hprev : prev.length = nChan) (hbits : maskBits.length = nChan)
    (hfields : fields.length = nChan)
    (hw : ∀ k, k < nChan →
      (fields.getD k []).length = (if maskBits.getD k false then 2 else 1))
    (havs : ∀ a ∈ avs, a.length = 4)
    (hcount : avs.length =
      (flagSpec (erdSentinel schema) (maskBits.zip prev) fields).count none) :
    readErdRow schema nChan prev
      (0 :: (maskBytes ++ (fields.flatten ++ (avs.flatten ++ rest)))) =
      .row (fillAbs (flagSpec (erdSentinel schema) (maskBits.zip prev) fields)
        avs) rest := by
  have hw2 : ∀ k, k < maskBits.length →
      (fields.getD k []).length = (if maskBits.getD k false then 2 else 1) :=
    fun k hk => hw k (by omega)
  unfold readErdRow
  dsimp only
  rw [if_neg (show ¬((0 : Nat) ≠ 0) by simp)]
  rcases hschema with ⟨h7, hmb, hrep⟩ | ⟨h89, hmblen, hbm⟩
  · subst h7
    subst hmb
    rw [if_pos rfl]
    dsimp only
    simp only [List.nil_append]
    rw [← hrep]
    rw [erdPass1_spec (erdSentinel 7) maskBits prev fields _ (by omega)
      (by omega) hw2]
    dsimp only
    rw [if_neg (by rw [flagSpec_length]
                   simp only [List.length_zip, hbits, hprev, hfields,
                     min_self]
                   omega)]
    rw [erdPass2_spec _ avs rest havs hcount]
  · have h7 : schema ≠ 7 := by rcases h89 with h | h <;> omega
    rw [if_neg h7]
    dsimp only
    rw [← hmblen, List.take_left, List.drop_left, hbm]
    rw [erdPass1_spec (erdSentinel schema) maskBits prev fields _ (by omega)
      (by omega) hw2]
    dsimp only
    rw [if_neg (by rw [flagSpec_length]
                   simp only [List.length_zip, hbits, hprev, hfields,
                     min_self]
                   omega)]
    rw [erdPass2_spec _ avs rest havs hcount]

theorem readErdRow_codec_witness :
    readErdRow 8 2 [100, 200]
      (0 :: ([253] ++ ([[255, 255], [5]].flatten ++
        ([[9, 0, 0, 0]].flatten ++ [77, 88])))) =
      .row [9, 205] [77, 88] := by
  rw [readErdRow_codec 8 2 [100, 200] [253] [true, false] [[255, 255], [5]]
    [[9, 0, 0, 0]] [77, 88] (Or.inr ⟨Or.inl rfl, by decide, by decide⟩)
    (by decide) (by decide) (by decide) (by decide) (by decide) (by decide)]
  decide

/-- C7: for an annotation file made of well-formed record headers, every
record whose translated payload the evaluator accepts contributes its
value in order, every record whose payload fails heuristic translation
is silently omitted while parsing resumes at the next record header (no
error reaches the caller), and the type-zero record terminates the
stream with everything after it ignored. -/
theorem read_ent_recoverable {V : Type} (ev : List Nat → Option V)
    (hdr : List Nat) (recs : List (Int × List Nat)) (trailing : List Nat)
    (hhdr : hdr.length = 352)
    (hrec : ∀ r ∈ recs, r.1 ≠ 0 ∧ -2147483648 ≤ r.1 ∧ r.1 < 2147483648 ∧
        (r.2.length : Int) + 16 < 2147483648) :
    read_ent ev (hdr ++ mkEntStream recs trailing) =
      .ok (recs.filterMap
        (fun r => ev (translateNote (r.2.take (r.2.length - 2))))) := by
  unfold read_ent
  rw [show (hdr ++ mkEntStream recs trailing).drop 352 =
      mkEntStream recs trailing by rw [← hhdr, List.drop_left]]
  exact entLoop_spec ev recs trailing hrec

set_option maxRecDepth 4000 in
theorem read_ent_recoverable_witness :
    read_ent (fun l => if l.length % 2 = 0 then some l else none)
      (List.replicate 352 0 ++ mkEntStream
        [(3, [65, 66, 0, 0]), (5, [67, 0, 0]), (7, [68, 69, 0, 0])]
        [9, 9, 9]) = .ok [[65, 66], [68, 69]] := by
  rw [read_ent_recoverable (fun l => if l.length % 2 = 0 then some l else none)
    (List.replicate 352 0)
    [(3, [65, 66, 0, 0]), (5, [67, 0, 0]), (7, [68, 69, 0, 0])] [9, 9, 9]
    (by simp) (by decide)]
  simp [List.filterMap_cons, translateNote, pyReplace, entSub]

/-- C9: the event byte of each sample row of the segmented-format raw
decoder must be zero: a nonzero byte fails the assertion, an absent byte
is the end-of-stream condition, and a whole read whose first row has a
nonzero event byte aborts with the assertion error, so no row with a
nonzero event byte is ever stored. -/
theorem readErdRow_event_byte :
    (∀ (schema nChan : Nat) (prev : List Int) (b : Nat) (s1 : List Nat),
      b ≠ 0 → readErdRow schema nChan prev (b :: s1) = .err .assertionError) ∧
    (∀ (schema nChan : Nat) (prev : List Int),
      readErdRow schema nChan prev [] = .eos) ∧
    (∀ (schema nChan nSamples : Nat) (file : List Nat) (b : Nat) (s1 : List Nat),
      1 ≤ nSamples → file.drop (if schema = 7 then 4560 else 8656) = b :: s1 →
      b ≠ 0 → read_erd schema nChan nSamples file = .error .assertionError) := by
  have hrow : ∀ (schema nChan : Nat) (prev : List Int) (b : Nat) (s1 : List Nat),
      b ≠ 0 → readErdRow schema nChan prev (b :: s1) = .err .assertionError := by
    intro schema nChan prev b s1 hb
    unfold readErdRow
    simp [hb]
  refine ⟨hrow, fun _ _ _ => rfl, ?_⟩
  intro schema nChan n file b s1 hn hdrop hb
  unfold read_erd
  rw [hdrop]
  obtain ⟨k, rfl⟩ : ∃ k, n = k + 1 := ⟨n - 1, by omega⟩
  unfold erdRows
  rw [hrow schema nChan (List.replicate nChan 0) b s1 hb]

theorem readErdRow_event_byte_witness :
    readErdRow 8 2 [0, 0] [1] = .err .assertionError ∧
    readErdRow 8 2 [0, 0] [] = .eos ∧
    read_erd 8 2 1 (List.replicate 8657 1) = .error .assertionError :=
  ⟨readErdRow_event_byte.1 8 2 [0, 0] 1 [] (by decide),
   readErdRow_event_byte.2.1 8 2 [0, 0],
   readErdRow_event_byte.2.2 8 2 1 (List.replicate 8657 1) 1 []
     (by decide) (by rw [if_neg (by norm_num), List.drop_replicate]; decide)
     (by decide)⟩

end Phypno
